import Mathlib

/-!
Verification of the `VonMisesTube` component of OpenAeroStruct
(`openaerostruct/structures/vonmises_tube.py`).

The component computes, for each finite element of a 1-D beam, a pair of
von Mises stress magnitudes from the endpoint node positions of the element,
its tube radius, and the endpoint displacement 6-vectors.  The Python
`compute` method loops over the `ny - 1` elements, building for each a
local orthonormal frame stored in a shared scratch buffer `self.T`, and
writing the stress pair into row `ielem` of the `vonmises` output array.

The embedding below models the real-valued evaluation path (the
`fortran_flag = False` branch of `compute`) with exact real arithmetic:
machine floating point is replaced by `ℝ`.  The in-place mutation of the
`vonmises` output array and of the scratch frame `T` is modelled by
explicit state passing (`VMState`), one `computeStep` per loop iteration.

The helpers `norm` and `unit` are imported by the source from
`openaerostruct.structures.utils`, a module of this repository that is
not part of the sources under verification; they are modelled from the
specification (`L = |P1 − P0|` Euclidean norm, `unit(v) = v / |v|`).
-/

namespace VonMisesTube

/-- A 3-vector of reals, one row of the `nodes` array or of the frame `T`. -/
abbrev V3 : Type := Fin 3 → ℝ

noncomputable section

/-- Modelled from the spec: `openaerostruct.structures.utils.norm`, the
Euclidean norm `|v| = sqrt (v₀² + v₁² + v₂²)` of a 3-vector (the source
imports it from a module that is outside the verified sources). -/
def norm3 (v : V3) : ℝ := Real.sqrt (v 0 ^ 2 + v 1 ^ 2 + v 2 ^ 2)

/-- Modelled from the spec: `openaerostruct.structures.utils.unit`,
`unit(v) = v / |v|` (componentwise division by the Euclidean norm). -/
def unit (v : V3) : V3 := fun i => v i / norm3 v

/-- The cross product `np.cross a b` of two 3-vectors. -/
def cross3 (a b : V3) : V3 :=
  ![a 1 * b 2 - a 2 * b 1, a 2 * b 0 - a 0 * b 2, a 0 * b 1 - a 1 * b 0]

/-- Dot product of two 3-vectors (one row of `T.dot(v)`). -/
def dot3 (a b : V3) : ℝ := a 0 * b 0 + a 1 * b 1 + a 2 * b 2

/-- The matrix-vector product `T.dot(v)` for a 3×3 matrix given by rows. -/
def matvec (T : Fin 3 → V3) (v : V3) : V3 := fun i => dot3 (T i) v

/-- The global reference axis `self.x_gl = np.array([1, 0, 0])`. -/
def stdXgl : V3 := ![1, 0, 0]

/-- The elementwise difference `P1 - P0` of two nodes. -/
def vsub (P1 P0 : V3) : V3 := fun i => P1 i - P0 i

/-- The local frame built in `compute` (source lines 86–92): rows
`x_loc = unit(P1 - P0)`, `y_loc = unit(x_loc × x_gl)`,
`z_loc = unit(x_loc × y_loc)`, assigned to `T[0,:]`, `T[1,:]`, `T[2,:]`. -/
def frameOf (x_gl P0 P1 : V3) : Fin 3 → V3 :=
  let x_loc := unit (vsub P1 P0)
  let y_loc := unit (cross3 x_loc x_gl)
  let z_loc := unit (cross3 x_loc y_loc)
  ![x_loc, y_loc, z_loc]

/-- The per-element stress pair of `compute` (source lines 82–105): the
frame is built and fully assigned into `T`, the endpoint displacement
6-vectors are rotated into it, and the closed-form stress formulas are
applied.  Returns `(vonmises[ielem, 0], vonmises[ielem, 1])`. -/
def elemVM (E G : ℝ) (x_gl P0 P1 : V3) (r : ℝ) (d0 d1 : Fin 6 → ℝ) : ℝ × ℝ :=
  let L := norm3 (vsub P1 P0)
  let T := frameOf x_gl P0 P1
  let u0 := matvec T ![d0 0, d0 1, d0 2]
  let r0 := matvec T ![d0 3, d0 4, d0 5]
  let u1 := matvec T ![d1 0, d1 1, d1 2]
  let r1 := matvec T ![d1 3, d1 4, d1 5]
  let tmp := Real.sqrt ((r1 1 - r0 1) ^ 2 + (r1 2 - r0 2) ^ 2)
  let sxx0 := E * (u1 0 - u0 0) / L + E * r / L * tmp
  let sxx1 := E * (u0 0 - u1 0) / L + E * r / L * tmp
  let sxt := G * r * (r1 0 - r0 0) / L
  (Real.sqrt (sxx0 ^ 2 + sxt ^ 2), Real.sqrt (sxx1 ^ 2 + sxt ^ 2))

/-- The mutable state visible to `compute`: the three input arrays, the
output array `vonmises` (whose rows are written in place), and the
shared scratch frame buffer `self.T`.  Arrays are modelled as functions
from the row index. -/
structure VMState where
  nodes : ℕ → V3
  radius : ℕ → ℝ
  disp : ℕ → Fin 6 → ℝ
  vonmises : ℕ → ℝ × ℝ
  T : Fin 3 → V3

/-- One iteration of the `for ielem in range(self.ny-1)` loop of
`compute`: the scratch buffer `T` is overwritten with the frame of
element `ielem` (all three rows assigned before any read), and row
`ielem` of `vonmises` is written with the stress pair of the element.  The
input arrays are not written. -/
def computeStep (E G : ℝ) (x_gl : V3) (s : VMState) (ielem : ℕ) : VMState :=
  { s with
    T := frameOf x_gl (s.nodes ielem) (s.nodes (ielem + 1))
    vonmises := Function.update s.vonmises ielem
      (elemVM E G x_gl (s.nodes ielem) (s.nodes (ielem + 1)) (s.radius ielem)
        (s.disp ielem) (s.disp (ielem + 1))) }

/-- Running the loop body for elements `0, 1, …, n-1` in order. -/
def computeUpto (E G : ℝ) (x_gl : V3) (s : VMState) : ℕ → VMState
  | 0 => s
  | n + 1 => computeStep E G x_gl (computeUpto E G x_gl s n) n

/-- The full `compute` call of the component for a surface with
`num_y = ny`: the loop runs over the `ny - 1` elements. -/
def compute (E G : ℝ) (x_gl : V3) (ny : ℕ) (s : VMState) : VMState :=
  computeUpto E G x_gl s (ny - 1)

/-! ### Basic structural lemmas about the loop -/

theorem computeStep_nodes (E G : ℝ) (x_gl : V3) (s : VMState) (k : ℕ) :
    (computeStep E G x_gl s k).nodes = s.nodes := rfl

theorem computeStep_radius (E G : ℝ) (x_gl : V3) (s : VMState) (k : ℕ) :
    (computeStep E G x_gl s k).radius = s.radius := rfl

theorem computeStep_disp (E G : ℝ) (x_gl : V3) (s : VMState) (k : ℕ) :
    (computeStep E G x_gl s k).disp = s.disp := rfl

theorem computeUpto_nodes (E G : ℝ) (x_gl : V3) (s : VMState) (n : ℕ) :
    (computeUpto E G x_gl s n).nodes = s.nodes := by
  induction n with
  | zero => rfl
  | succ n ih => simpa [computeUpto, computeStep_nodes] using ih

theorem computeUpto_radius (E G : ℝ) (x_gl : V3) (s : VMState) (n : ℕ) :
    (computeUpto E G x_gl s n).radius = s.radius := by
  induction n with
  | zero => rfl
  | succ n ih => simpa [computeUpto, computeStep_radius] using ih

theorem computeUpto_disp (E G : ℝ) (x_gl : V3) (s : VMState) (n : ℕ) :
    (computeUpto E G x_gl s n).disp = s.disp := by
  induction n with
  | zero => rfl
  | succ n ih => simpa [computeUpto, computeStep_disp] using ih

/-- Rows of `vonmises` already processed hold exactly the per-element
stress pair of the corresponding element, regardless of the initial
contents of the output buffer and of the scratch frame `T`. -/
theorem computeUpto_vonmises_lt (E G : ℝ) (x_gl : V3) (s : VMState) (n i : ℕ)
    (h : i < n) :
    (computeUpto E G x_gl s n).vonmises i =
      elemVM E G x_gl (s.nodes i) (s.nodes (i + 1)) (s.radius i)
        (s.disp i) (s.disp (i + 1)) := by
  induction n with
  | zero => omega
  | succ n ih =>
    rcases Nat.lt_succ_iff_lt_or_eq.mp h with h' | h'
    · have hne : i ≠ n := Nat.ne_of_lt h'
      simp only [computeUpto, computeStep, Function.update_noteq hne]
      exact ih h'
    · subst h'
      simp only [computeUpto, computeStep, Function.update_same,
        computeUpto_nodes, computeUpto_radius, computeUpto_disp]

/-- Rows of `vonmises` beyond the processed range are untouched. -/
theorem computeUpto_vonmises_ge (E G : ℝ) (x_gl : V3) (s : VMState) (n i : ℕ)
    (h : n ≤ i) :
    (computeUpto E G x_gl s n).vonmises i = s.vonmises i := by
  induction n with
  | zero => rfl
  | succ n ih =>
    have hne : i ≠ n := by omega
    simp only [computeUpto, computeStep, Function.update_noteq hne]
    exact ih (by omega)

/-! ### Vector algebra lemmas -/

theorem norm3_nonneg (v : V3) : 0 ≤ norm3 v := Real.sqrt_nonneg _

theorem norm3_sq (v : V3) : norm3 v ^ 2 = v 0 ^ 2 + v 1 ^ 2 + v 2 ^ 2 :=
  Real.sq_sqrt (by positivity)

theorem eq_zero_of_sumsq_eq_zero {v : V3}
    (h : v 0 ^ 2 + v 1 ^ 2 + v 2 ^ 2 = 0) : v = 0 := by
  have h0 : v 0 = 0 := by nlinarith [sq_nonneg (v 0), sq_nonneg (v 1), sq_nonneg (v 2)]
  have h1 : v 1 = 0 := by nlinarith [sq_nonneg (v 0), sq_nonneg (v 1), sq_nonneg (v 2)]
  have h2 : v 2 = 0 := by nlinarith [sq_nonneg (v 0), sq_nonneg (v 1), sq_nonneg (v 2)]
  funext i
  fin_cases i <;> assumption

theorem norm3_pos {v : V3} (h : v ≠ 0) : 0 < norm3 v := by
  apply Real.sqrt_pos.mpr
  rcases (by positivity : (0:ℝ) ≤ v 0 ^ 2 + v 1 ^ 2 + v 2 ^ 2).lt_or_eq with hlt | heq
  · exact hlt
  · exact absurd (eq_zero_of_sumsq_eq_zero heq.symm) h

theorem norm3_unit {v : V3} (h : v ≠ 0) : norm3 (unit v) = 1 := by
  have hn : 0 < norm3 v := norm3_pos h
  have hs : norm3 v ^ 2 = v 0 ^ 2 + v 1 ^ 2 + v 2 ^ 2 := norm3_sq v
  have key : (v 0 / norm3 v) ^ 2 + (v 1 / norm3 v) ^ 2 + (v 2 / norm3 v) ^ 2 = 1 := by
    have hne : norm3 v ^ 2 ≠ 0 := by positivity
    field_simp
    linarith [hs]
  show Real.sqrt ((v 0 / norm3 v) ^ 2 + (v 1 / norm3 v) ^ 2 + (v 2 / norm3 v) ^ 2) = 1
  rw [key, Real.sqrt_one]

theorem dot3_self (v : V3) : dot3 v v = v 0 ^ 2 + v 1 ^ 2 + v 2 ^ 2 := by
  simp [dot3]; ring

theorem dot3_unit_left (a b : V3) : dot3 (unit a) b = dot3 a b / norm3 a := by
  simp [dot3, unit]; ring

theorem dot3_unit_right (a b : V3) : dot3 a (unit b) = dot3 a b / norm3 b := by
  simp [dot3, unit]; ring

theorem dot3_cross_left (a b : V3) : dot3 a (cross3 a b) = 0 := by
  simp [dot3, cross3]; ring

theorem dot3_cross_right (a b : V3) : dot3 b (cross3 a b) = 0 := by
  simp [dot3, cross3]; ring

theorem dot3_cross_self (a b : V3) :
    dot3 (cross3 a b) (cross3 a b) = dot3 a a * dot3 b b - dot3 a b ^ 2 := by
  simp [dot3, cross3]; ring

theorem cross3_unit_left (a b : V3) :
    cross3 (unit a) b = fun i => cross3 a b i / norm3 a := by
  funext i
  fin_cases i <;> simp [cross3, unit] <;> ring

theorem cross3_unit_left_ne_zero {a b : V3} (ha : a ≠ 0)
    (h : cross3 a b ≠ 0) : cross3 (unit a) b ≠ 0 := by
  rw [cross3_unit_left]
  intro hc
  apply h
  funext i
  have hi := congrFun hc i
  have hn : norm3 a ≠ 0 := ne_of_gt (norm3_pos ha)
  simpa [hn] using hi

theorem dot3_eq_one_of_norm3_eq_one {v : V3} (h : norm3 v = 1) :
    dot3 v v = 1 := by
  rw [dot3_self]
  have := norm3_sq v
  rw [h] at this
  simpa using this.symm

/-! ### Components of the frame -/

theorem frameOf_x (x_gl P0 P1 : V3) :
    frameOf x_gl P0 P1 0 = unit (vsub P1 P0) := rfl

theorem frameOf_y (x_gl P0 P1 : V3) :
    frameOf x_gl P0 P1 1 = unit (cross3 (unit (vsub P1 P0)) x_gl) := rfl

theorem frameOf_z (x_gl P0 P1 : V3) :
    frameOf x_gl P0 P1 2 =
      unit (cross3 (unit (vsub P1 P0))
        (unit (cross3 (unit (vsub P1 P0)) x_gl))) := rfl

theorem norm3_zero : norm3 (0 : V3) = 0 := by
  simp [norm3]

/-- C2: for every element whose two endpoint nodes are distinct and whose
axis is not parallel to the global reference axis, the frame built by
`compute` (`x_loc = unit(P1-P0)`, `y_loc = unit(x_loc × x_gl)`,
`z_loc = unit(x_loc × y_loc)`) is an orthonormal basis: each row of `T`
has unit norm and the pairwise dot products vanish. -/
theorem frameOf_orthonormal (x_gl P0 P1 : V3)
    (h1 : P0 ≠ P1) (h2 : cross3 (vsub P1 P0) x_gl ≠ 0) :
    (norm3 (frameOf x_gl P0 P1 0) = 1 ∧
     norm3 (frameOf x_gl P0 P1 1) = 1 ∧
     norm3 (frameOf x_gl P0 P1 2) = 1) ∧
    (dot3 (frameOf x_gl P0 P1 0) (frameOf x_gl P0 P1 1) = 0 ∧
     dot3 (frameOf x_gl P0 P1 0) (frameOf x_gl P0 P1 2) = 0 ∧
     dot3 (frameOf x_gl P0 P1 1) (frameOf x_gl P0 P1 2) = 0) := by
  have hd : vsub P1 P0 ≠ 0 := by
    intro h
    apply h1
    funext i
    have hi := congrFun h i
    simp only [vsub, Pi.zero_apply] at hi
    linarith
  have hxl : norm3 (unit (vsub P1 P0)) = 1 := norm3_unit hd
  have hc1 : cross3 (unit (vsub P1 P0)) x_gl ≠ 0 :=
    cross3_unit_left_ne_zero hd h2
  have hyl : norm3 (unit (cross3 (unit (vsub P1 P0)) x_gl)) = 1 := norm3_unit hc1
  have hxy : dot3 (unit (vsub P1 P0))
      (unit (cross3 (unit (vsub P1 P0)) x_gl)) = 0 := by
    rw [dot3_unit_right, dot3_cross_left, zero_div]
  have hc2 : cross3 (unit (vsub P1 P0))
      (unit (cross3 (unit (vsub P1 P0)) x_gl)) ≠ 0 := by
    intro h
    have hone : dot3
        (cross3 (unit (vsub P1 P0)) (unit (cross3 (unit (vsub P1 P0)) x_gl)))
        (cross3 (unit (vsub P1 P0)) (unit (cross3 (unit (vsub P1 P0)) x_gl)))
        = 1 := by
      rw [dot3_cross_self, dot3_eq_one_of_norm3_eq_one hxl,
        dot3_eq_one_of_norm3_eq_one hyl, hxy]
      norm_num
    rw [h] at hone
    simp [dot3] at hone
  refine ⟨⟨?_, ?_, ?_⟩, ?_, ?_, ?_⟩
  · rw [frameOf_x]; exact hxl
  · rw [frameOf_y]; exact hyl
  · rw [frameOf_z]; exact norm3_unit hc2
  · rw [frameOf_x, frameOf_y]; exact hxy
  · rw [frameOf_x, frameOf_z, dot3_unit_right, dot3_cross_left, zero_div]
  · rw [frameOf_y, frameOf_z, dot3_unit_right, dot3_cross_right, zero_div]

/-- Witness for C2 at the concrete element `P0 = (0,0,0)`, `P1 = (0,1,0)`
with the global axis `(1,0,0)`. -/
theorem frameOf_orthonormal_witness :
    (norm3 (frameOf stdXgl ![0, 0, 0] ![0, 1, 0] 0) = 1 ∧
     norm3 (frameOf stdXgl ![0, 0, 0] ![0, 1, 0] 1) = 1 ∧
     norm3 (frameOf stdXgl ![0, 0, 0] ![0, 1, 0] 2) = 1) ∧
    (dot3 (frameOf stdXgl ![0, 0, 0] ![0, 1, 0] 0)
       (frameOf stdXgl ![0, 0, 0] ![0, 1, 0] 1) = 0 ∧
     dot3 (frameOf stdXgl ![0, 0, 0] ![0, 1, 0] 0)
       (frameOf stdXgl ![0, 0, 0] ![0, 1, 0] 2) = 0 ∧
     dot3 (frameOf stdXgl ![0, 0, 0] ![0, 1, 0] 1)
       (frameOf stdXgl ![0, 0, 0] ![0, 1, 0] 2) = 0) :=
  frameOf_orthonormal stdXgl ![0, 0, 0] ![0, 1, 0]
    (by
      intro h
      have h1 := congrFun h 1
      norm_num at h1)
    (by
      intro h
      have h2 := congrFun h 2
      simp [cross3, vsub, stdXgl] at h2)

/-- The closed-form stress formulas exactly as the specification states
them (section 4.1–4.2): local quantities obtained by rotating the
endpoint displacement 6-vectors into the element frame,
`bend = sqrt((r1y-r0y)² + (r1z-r0z)²)`,
`sigma0 = E·(u1x-u0x)/L + E·r/L·bend`,
`sigma1 = E·(u0x-u1x)/L + E·r/L·bend`,
`shear = G·r·(r1x-r0x)/L`, and von Mises combination
`sqrt(sigma² + shear²)` with no factor of 3 on the shear term. -/
def specStressPair (E G : ℝ) (x_gl P0 P1 : V3) (r : ℝ) (d0 d1 : Fin 6 → ℝ) :
    ℝ × ℝ :=
  let L := norm3 (vsub P1 P0)
  let x_loc := unit (vsub P1 P0)
  let y_loc := unit (cross3 x_loc x_gl)
  let z_loc := unit (cross3 x_loc y_loc)
  let u0x := dot3 x_loc ![d0 0, d0 1, d0 2]
  let r0x := dot3 x_loc ![d0 3, d0 4, d0 5]
  let r0y := dot3 y_loc ![d0 3, d0 4, d0 5]
  let r0z := dot3 z_loc ![d0 3, d0 4, d0 5]
  let u1x := dot3 x_loc ![d1 0, d1 1, d1 2]
  let r1x := dot3 x_loc ![d1 3, d1 4, d1 5]
  let r1y := dot3 y_loc ![d1 3, d1 4, d1 5]
  let r1z := dot3 z_loc ![d1 3, d1 4, d1 5]
  let bend := Real.sqrt ((r1y - r0y) ^ 2 + (r1z - r0z) ^ 2)
  let sigma0 := E * (u1x - u0x) / L + E * r / L * bend
  let sigma1 := E * (u0x - u1x) / L + E * r / L * bend
  let shear := G * r * (r1x - r0x) / L
  (Real.sqrt (sigma0 ^ 2 + shear ^ 2), Real.sqrt (sigma1 ^ 2 + shear ^ 2))

theorem elemVM_eq_spec (E G : ℝ) (x_gl P0 P1 : V3) (r : ℝ) (d0 d1 : Fin 6 → ℝ) :
    elemVM E G x_gl P0 P1 r d0 d1 = specStressPair E G x_gl P0 P1 r d0 d1 := rfl

/-- Zero endpoint displacements give the zero stress pair. -/
theorem elemVM_zero_disp (E G : ℝ) (x_gl P0 P1 : V3) (r : ℝ) :
    elemVM E G x_gl P0 P1 r (fun _ => 0) (fun _ => 0) = (0, 0) := by
  simp [elemVM, matvec, dot3]

/-! ### Concrete data reused by the witnesses -/

/-- A concrete two-node geometry: element 0 runs from the origin to
`(0,1,0)`, perpendicular to the global axis. -/
def wNodes : ℕ → V3 := fun j => if j = 0 then ![0, 0, 0] else ![0, 1, 0]

/-- A concrete well-posed state on `wNodes` with zero displacements. -/
def wState : VMState :=
  ⟨wNodes, fun _ => 1, fun _ _ => 0, fun _ => (0, 0), fun _ _ => 0⟩

theorem wState_nodes_ne : wState.nodes 0 ≠ wState.nodes 1 := by
  intro h
  have h1 := congrFun h 1
  simp [wState, wNodes] at h1

theorem wState_not_parallel :
    cross3 (vsub (wState.nodes 1) (wState.nodes 0)) stdXgl ≠ 0 := by
  intro h
  have h2 := congrFun h 2
  simp [wState, wNodes, cross3, vsub, stdXgl] at h2

/-- C1: for every element with well-posed geometry, `compute` produces
exactly the closed-form stress pair of the specification, obtained by
rotating the endpoint displacement 6-vectors into the element frame —
with no factor of 3 on the shear term (see `specStressPair`). -/
theorem vonmises_matches_spec_formula (E G : ℝ) (x_gl : V3) (s : VMState)
    (n i : ℕ) (hin : i < n)
    (h1 : s.nodes i ≠ s.nodes (i + 1))
    (h2 : cross3 (vsub (s.nodes (i + 1)) (s.nodes i)) x_gl ≠ 0) :
    (computeUpto E G x_gl s n).vonmises i =
      specStressPair E G x_gl (s.nodes i) (s.nodes (i + 1)) (s.radius i)
        (s.disp i) (s.disp (i + 1)) := by
  rw [computeUpto_vonmises_lt E G x_gl s n i hin]
  exact elemVM_eq_spec ..

/-- Witness for C1 on the concrete well-posed state `wState`. -/
theorem vonmises_matches_spec_formula_witness :
    (computeUpto 1 1 stdXgl wState 1).vonmises 0 =
      specStressPair 1 1 stdXgl (wState.nodes 0) (wState.nodes 1)
        (wState.radius 0) (wState.disp 0) (wState.disp 1) :=
  vonmises_matches_spec_formula 1 1 stdXgl wState 1 0 (by norm_num)
    wState_nodes_ne wState_not_parallel

/-- C3: on any geometry and radii, identically zero displacements make
`compute` return an identically zero `vonmises` array. -/
theorem vonmises_zero_of_zero_disp (E G : ℝ) (x_gl : V3) (nodes : ℕ → V3)
    (radius : ℕ → ℝ) (vm0 : ℕ → ℝ × ℝ) (T0 : Fin 3 → V3) (ny i : ℕ)
    (h : i < ny - 1) :
    (compute E G x_gl ny ⟨nodes, radius, fun _ _ => 0, vm0, T0⟩).vonmises i
      = (0, 0) := by
  rw [compute, computeUpto_vonmises_lt _ _ _ _ _ _ h]
  exact elemVM_zero_disp ..

/-- Witness for C3 on the concrete geometry `wNodes` with `ny = 2`. -/
theorem vonmises_zero_of_zero_disp_witness :
    (compute 1 1 stdXgl 2
      ⟨wNodes, fun _ => 1, fun _ _ => 0, fun _ => (0, 0), fun _ _ => 0⟩).vonmises 0
      = (0, 0) :=
  vonmises_zero_of_zero_disp 1 1 stdXgl wNodes (fun _ => 1) (fun _ => (0, 0))
    (fun _ _ => 0) 2 0 (by norm_num)

/-- C5: the stress pair of element `k` inside the full loop equals the
pair obtained by computing element `k` alone, from just its two nodes,
its radius and its two displacement rows, in a state `t` whose scratch
frame `T` and prior `vonmises` contents are arbitrary — the scratch
frame is fully overwritten before being read, so no stale data from a
previous element influences the result. -/
theorem vonmises_element_independent (E G : ℝ) (x_gl : V3) (s t : VMState)
    (n k : ℕ) (hk : k < n)
    (hn0 : t.nodes 0 = s.nodes k) (hn1 : t.nodes 1 = s.nodes (k + 1))
    (hr : t.radius 0 = s.radius k)
    (hd0 : t.disp 0 = s.disp k) (hd1 : t.disp 1 = s.disp (k + 1)) :
    (computeUpto E G x_gl t 1).vonmises 0 =
      (computeUpto E G x_gl s n).vonmises k := by
  rw [computeUpto_vonmises_lt E G x_gl t 1 0 (by norm_num),
    computeUpto_vonmises_lt E G x_gl s n k hk, hn0, hn1, hr, hd0, hd1]

/-- Witness for C5: element 0 of `wState` computed alone in a state with
a different scratch frame and different prior output contents. -/
theorem vonmises_element_independent_witness :
    (computeUpto 1 1 stdXgl
      ⟨wNodes, fun _ => 1, fun _ _ => 0, fun _ => (3, 4), fun _ _ => 7⟩
      1).vonmises 0 =
      (computeUpto 1 1 stdXgl wState 1).vonmises 0 :=
  vonmises_element_independent 1 1 stdXgl wState
    ⟨wNodes, fun _ => 1, fun _ _ => 0, fun _ => (3, 4), fun _ _ => 7⟩
    1 0 (by norm_num) rfl rfl rfl rfl rfl

/-- C9: `compute` is deterministic and pure: two states with identical
`nodes`, `radius` and `disp` (and the same `E`, `G`, `x_gl`, `ny`)
produce identical `vonmises` entries for every element, whatever the
initial output-buffer and scratch-frame contents; and the call leaves
the three input arrays unchanged. -/
theorem compute_deterministic_pure (E G : ℝ) (x_gl : V3) (ny : ℕ)
    (s1 s2 : VMState)
    (hn : s1.nodes = s2.nodes) (hr : s1.radius = s2.radius)
    (hd : s1.disp = s2.disp) :
    (∀ i, i < ny - 1 →
      (compute E G x_gl ny s1).vonmises i =
        (compute E G x_gl ny s2).vonmises i) ∧
    (compute E G x_gl ny s1).nodes = s1.nodes ∧
    (compute E G x_gl ny s1).radius = s1.radius ∧
    (compute E G x_gl ny s1).disp = s1.disp := by
  refine ⟨fun i hi => ?_, computeUpto_nodes .., computeUpto_radius ..,
    computeUpto_disp ..⟩
  rw [compute, compute, computeUpto_vonmises_lt _ _ _ _ _ _ hi,
    computeUpto_vonmises_lt _ _ _ _ _ _ hi, hn, hr, hd]

/-- Witness for C9: two states sharing inputs but with different initial
output buffers and scratch frames. -/
theorem compute_deterministic_pure_witness :
    (∀ i, i < 2 - 1 →
      (compute 1 1 stdXgl 2 wState).vonmises i =
        (compute 1 1 stdXgl 2
          ⟨wNodes, fun _ => 1, fun _ _ => 0, fun _ => (5, 6), fun _ _ => 2⟩).vonmises i) ∧
    (compute 1 1 stdXgl 2 wState).nodes = wState.nodes ∧
    (compute 1 1 stdXgl 2 wState).radius = wState.radius ∧
    (compute 1 1 stdXgl 2 wState).disp = wState.disp :=
  compute_deterministic_pure 1 1 stdXgl 2 wState
    ⟨wNodes, fun _ => 1, fun _ _ => 0, fun _ => (5, 6), fun _ _ => 2⟩
    rfl rfl rfl

/-! ### The pure-axial-stretch scenario (C4) -/

/-- The concrete scenario input: two nodes `(0,0,0)` and `(1,0,1)`,
radius `0.1`, all displacements zero except that node 1 carries the
translation `0.01 · x_loc` — a pure local axial stretch `u1x = 0.01`. -/
def axialState : VMState :=
  ⟨fun j => if j = 0 then ![0, 0, 0] else ![1, 0, 1],
   fun _ => 0.1,
   fun j => if j = 0 then (fun _ => 0) else
     ![0.01 / Real.sqrt 2, 0, 0.01 / Real.sqrt 2, 0, 0, 0],
   fun _ => (0, 0), fun _ _ => 0⟩

theorem axial_elem :
    elemVM 70e9 25e9 stdXgl ![0, 0, 0] ![1, 0, 1] 0.1 (fun _ => 0)
      ![0.01 / Real.sqrt 2, 0, 0.01 / Real.sqrt 2, 0, 0, 0] =
      (70e9 * 0.01 / Real.sqrt 2, 70e9 * 0.01 / Real.sqrt 2) := by
  have h2 : (0:ℝ) ≤ 2 := by norm_num
  have ha2 : Real.sqrt 2 ^ 2 = 2 := Real.sq_sqrt h2
  have hapos : 0 < Real.sqrt 2 := Real.sqrt_pos.mpr (by norm_num)
  have hane : Real.sqrt 2 ≠ 0 := ne_of_gt hapos
  have hL : norm3 (vsub ![1, 0, 1] ![0, 0, 0]) = Real.sqrt 2 := by
    simp [norm3, vsub]
    norm_num
  have hx : unit (vsub ![(1:ℝ), 0, 1] ![0, 0, 0]) =
      ![(Real.sqrt 2)⁻¹, 0, (Real.sqrt 2)⁻¹] := by
    funext i
    fin_cases i <;> simp [unit, hL, vsub]
  have hd5 : (![0.01 / Real.sqrt 2, 0, 0.01 / Real.sqrt 2, 0, 0, 0] :
      Fin 6 → ℝ) 5 = 0 := rfl
  simp [elemVM, frameOf, matvec, dot3, hL, hx, hd5]
  have hmul : Real.sqrt 2 * Real.sqrt 2 = 2 := Real.mul_self_sqrt h2
  have hkey : (Real.sqrt 2)⁻¹ * (0.01 / Real.sqrt 2) +
      (Real.sqrt 2)⁻¹ * (0.01 / Real.sqrt 2) = 0.01 := by
    field_simp
  constructor
  · rw [hkey, Real.sqrt_sq (by positivity)]
  · have hneg : 70e9 * (-((Real.sqrt 2)⁻¹ * (0.01 / Real.sqrt 2)) +
        -((Real.sqrt 2)⁻¹ * (0.01 / Real.sqrt 2))) / Real.sqrt 2 =
        -(70e9 * ((Real.sqrt 2)⁻¹ * (0.01 / Real.sqrt 2) +
          (Real.sqrt 2)⁻¹ * (0.01 / Real.sqrt 2)) / Real.sqrt 2) := by
      ring
    rw [hneg, neg_sq, hkey, Real.sqrt_sq (by positivity)]

/-- C4: on the concrete input with nodes `(0,0,0)` and `(1,0,1)`,
radius `0.1`, `E = 70e9`, `G = 25e9`, and displacements all zero except
a local axial stretch `u1x = 0.01` at node 1 (translation `0.01·x_loc`),
`compute` returns `vonmises[0,0] = vonmises[0,1] = E·0.01/L` with the
element length `L = sqrt 2`. -/
theorem vonmises_pure_axial_scenario :
    norm3 (vsub (axialState.nodes 1) (axialState.nodes 0)) = Real.sqrt 2 ∧
    (compute 70e9 25e9 stdXgl 2 axialState).vonmises 0 =
      (70e9 * 0.01 / Real.sqrt 2, 70e9 * 0.01 / Real.sqrt 2) := by
  constructor
  · show norm3 (vsub ![1, 0, 1] ![0, 0, 0]) = Real.sqrt 2
    simp [norm3, vsub]
    norm_num
  · rw [compute, computeUpto_vonmises_lt _ _ _ _ _ _ (by norm_num)]
    exact axial_elem

/-! ### The derivative wrapper compute_jacvec_product

The analytic derivative backend (`OAS_API.oas_api.calc_vonmises_d` /
`calc_vonmises_b`) is a compiled Fortran extension of the repository,
outside the verified sources; the Python wrapper around it is verified
here with the backend as an explicit function parameter, so every
theorem below holds for the actual backend whatever it computes. -/

/-- Signature of the forward backend `calc_vonmises_d(nodes, nodesd,
radius, radiusd, disp, dispd, E, G, x_gl)`, returning the tangent of the
`vonmises` array. -/
abbrev CalcD : Type :=
  (ℕ → V3) → (ℕ → V3) → (ℕ → ℝ) → (ℕ → ℝ) → (ℕ → Fin 6 → ℝ) →
    (ℕ → Fin 6 → ℝ) → ℝ → ℝ → V3 → (ℕ → ℝ × ℝ)

/-- Signature of the reverse backend `calc_vonmises_b(nodes, radius,
disp, E, G, x_gl, vonmises, vonmisesb)`, returning the adjoints
`(nodesb, radiusb, dispb)`. -/
abbrev CalcB : Type :=
  (ℕ → V3) → (ℕ → ℝ) → (ℕ → Fin 6 → ℝ) → ℝ → ℝ → V3 → (ℕ → ℝ × ℝ) →
    (ℕ → ℝ × ℝ) → ((ℕ → V3) × (ℕ → ℝ) × (ℕ → Fin 6 → ℝ))

/-- Real parts of a complex `nodes` array (the source reads the `.real` view of the `nodes` input). -/
def reNodes (a : ℕ → Fin 3 → ℂ) : ℕ → V3 := fun i k => (a i k).re

/-- Real parts of a complex `radius` array (the source reads the `.real` view of the `radius` input). -/
def reRadius (a : ℕ → ℂ) : ℕ → ℝ := fun i => (a i).re

/-- Real parts of a complex `disp` array (the source reads the `.real` view of the `disp` input). -/
def reDisp (a : ℕ → Fin 6 → ℂ) : ℕ → Fin 6 → ℝ := fun i j => (a i j).re

/-- Real parts of a complex `vonmises` array (the source reads the
`.real` view of the `vonmises` output). -/
def reVM (a : ℕ → ℂ × ℂ) : ℕ → ℝ × ℝ := fun i => ((a i).1.re, (a i).2.re)

/-- Forward mode of `compute_jacvec_product` (source lines 110-120):
the real parts of `nodes`, `radius`, `disp` and the raw seeds are passed
to the backend, whose tangent is added (`+=`) into the accumulator row
`vonmises` of the output-derivative buffer. -/
def jacvecFwd (calcd : CalcD) (nodes : ℕ → Fin 3 → ℂ) (radius : ℕ → ℂ)
    (disp : ℕ → Fin 6 → ℂ) (dnodes : ℕ → V3) (dradius : ℕ → ℝ)
    (ddisp : ℕ → Fin 6 → ℝ) (E G : ℝ) (x_gl : V3)
    (dvonmises : ℕ → ℝ × ℝ) : ℕ → ℝ × ℝ :=
  fun i => dvonmises i +
    calcd (reNodes nodes) dnodes (reRadius radius) dradius (reDisp disp)
      ddisp E G x_gl i

/-- Reverse mode of `compute_jacvec_product` (source lines 110-126):
the real parts of `nodes`, `radius`, `disp`, `vonmises` and the raw
output seed are passed to the backend, whose adjoints are added (`+=`)
into the input-derivative accumulators for `nodes`, `radius`, `disp`. -/
def jacvecRev (calcb : CalcB) (nodes : ℕ → Fin 3 → ℂ) (radius : ℕ → ℂ)
    (disp : ℕ → Fin 6 → ℂ) (E G : ℝ) (x_gl : V3) (vonmises : ℕ → ℂ × ℂ)
    (seed : ℕ → ℝ × ℝ) (dnodes : ℕ → V3) (dradius : ℕ → ℝ)
    (ddisp : ℕ → Fin 6 → ℝ) :
    (ℕ → V3) × (ℕ → ℝ) × (ℕ → Fin 6 → ℝ) :=
  let b := calcb (reNodes nodes) (reRadius radius) (reDisp disp) E G x_gl
    (reVM vonmises) seed
  (fun i k => dnodes i k + b.1 i k,
   fun i => dradius i + b.2.1 i,
   fun i j => ddisp i j + b.2.2 i j)

/-- C6: both derivative operations add into the existing accumulators
rather than overwriting: invoking either twice with the same seed leaves
each accumulator equal to its prior content plus twice the single-call
backend contribution — for every backend, every input and every prior
accumulator state. -/
theorem jacvec_accumulates (calcd : CalcD) (calcb : CalcB)
    (nodes : ℕ → Fin 3 → ℂ) (radius : ℕ → ℂ) (disp : ℕ → Fin 6 → ℂ)
    (dnodes : ℕ → V3) (dradius : ℕ → ℝ) (ddisp : ℕ → Fin 6 → ℝ)
    (E G : ℝ) (x_gl : V3) (vonmises : ℕ → ℂ × ℂ) (seed acc : ℕ → ℝ × ℝ)
    (accN : ℕ → V3) (accR : ℕ → ℝ) (accD : ℕ → Fin 6 → ℝ) :
    jacvecFwd calcd nodes radius disp dnodes dradius ddisp E G x_gl
        (jacvecFwd calcd nodes radius disp dnodes dradius ddisp E G x_gl acc)
      = (fun i => acc i +
          (calcd (reNodes nodes) dnodes (reRadius radius) dradius
             (reDisp disp) ddisp E G x_gl i +
           calcd (reNodes nodes) dnodes (reRadius radius) dradius
             (reDisp disp) ddisp E G x_gl i)) ∧
    (let r1 := jacvecRev calcb nodes radius disp E G x_gl vonmises seed
        accN accR accD
     let r2 := jacvecRev calcb nodes radius disp E G x_gl vonmises seed
        r1.1 r1.2.1 r1.2.2
     let b := calcb (reNodes nodes) (reRadius radius) (reDisp disp) E G
        x_gl (reVM vonmises) seed
     r2.1 = (fun i k => accN i k + (b.1 i k + b.1 i k)) ∧
     r2.2.1 = (fun i => accR i + (b.2.1 i + b.2.1 i)) ∧
     r2.2.2 = (fun i j => accD i j + (b.2.2 i j + b.2.2 i j))) := by
  refine ⟨?_, ?_, ?_, ?_⟩
  · funext i
    simp [jacvecFwd, add_assoc]
  · funext i k
    simp [jacvecRev, add_assoc]
  · funext i
    simp [jacvecRev, add_assoc]
  · funext i j
    simp [jacvecRev, add_assoc]

/-- C10: the derivative wrapper depends on the input arrays only through
their real parts: two calls whose complex `nodes`, `radius`, `disp` and
`vonmises` arrays agree in real part (seeds, accumulators and all else
equal) add identical contributions — for every backend. -/
theorem jacvec_uses_only_real_parts (calcd : CalcD) (calcb : CalcB)
    (nodes₁ nodes₂ : ℕ → Fin 3 → ℂ) (radius₁ radius₂ : ℕ → ℂ)
    (disp₁ disp₂ : ℕ → Fin 6 → ℂ) (vonmises₁ vonmises₂ : ℕ → ℂ × ℂ)
    (dnodes : ℕ → V3) (dradius : ℕ → ℝ) (ddisp : ℕ → Fin 6 → ℝ)
    (E G : ℝ) (x_gl : V3) (seed acc : ℕ → ℝ × ℝ)
    (accN : ℕ → V3) (accR : ℕ → ℝ) (accD : ℕ → Fin 6 → ℝ)
    (hn : reNodes nodes₁ = reNodes nodes₂)
    (hr : reRadius radius₁ = reRadius radius₂)
    (hd : reDisp disp₁ = reDisp disp₂)
    (hv : reVM vonmises₁ = reVM vonmises₂) :
    jacvecFwd calcd nodes₁ radius₁ disp₁ dnodes dradius ddisp E G x_gl acc
      = jacvecFwd calcd nodes₂ radius₂ disp₂ dnodes dradius ddisp E G x_gl acc ∧
    jacvecRev calcb nodes₁ radius₁ disp₁ E G x_gl vonmises₁ seed accN accR accD
      = jacvecRev calcb nodes₂ radius₂ disp₂ E G x_gl vonmises₂ seed accN accR accD := by
  constructor
  · funext i
    simp only [jacvecFwd, hn, hr, hd]
  · simp only [jacvecRev, hn, hr, hd, hv]

/-- Witness for C10: two input tuples with identical real parts and
differing imaginary parts, under a pair of concrete backends. -/
theorem jacvec_uses_only_real_parts_witness :
    jacvecFwd (fun _ _ _ _ _ _ _ _ _ i => ((i : ℝ), 0))
        (fun _ _ => ⟨1, 2⟩) (fun _ => ⟨2, 1⟩) (fun _ _ => ⟨0, 5⟩)
        (fun _ _ => 0) (fun _ => 0) (fun _ _ => 0) 1 1 stdXgl (fun _ => (0, 0))
      = jacvecFwd (fun _ _ _ _ _ _ _ _ _ i => ((i : ℝ), 0))
        (fun _ _ => ⟨1, 3⟩) (fun _ => ⟨2, 4⟩) (fun _ _ => ⟨0, 0⟩)
        (fun _ _ => 0) (fun _ => 0) (fun _ _ => 0) 1 1 stdXgl (fun _ => (0, 0)) ∧
    jacvecRev (fun _ _ _ _ _ _ _ _ => (fun _ _ => 1, fun _ => 2, fun _ _ => 3))
        (fun _ _ => ⟨1, 2⟩) (fun _ => ⟨2, 1⟩) (fun _ _ => ⟨0, 5⟩) 1 1 stdXgl
        (fun _ => (⟨1, 1⟩, ⟨1, 2⟩)) (fun _ => (1, 1))
        (fun _ _ => 0) (fun _ => 0) (fun _ _ => 0)
      = jacvecRev (fun _ _ _ _ _ _ _ _ => (fun _ _ => 1, fun _ => 2, fun _ _ => 3))
        (fun _ _ => ⟨1, 3⟩) (fun _ => ⟨2, 4⟩) (fun _ _ => ⟨0, 0⟩) 1 1 stdXgl
        (fun _ => (⟨1, 0⟩, ⟨1, 7⟩)) (fun _ => (1, 1))
        (fun _ _ => 0) (fun _ => 0) (fun _ _ => 0) :=
  jacvec_uses_only_real_parts
    (fun _ _ _ _ _ _ _ _ _ i => ((i : ℝ), 0))
    (fun _ _ _ _ _ _ _ _ => (fun _ _ => 1, fun _ => 2, fun _ _ => 3))
    (fun _ _ => ⟨1, 2⟩) (fun _ _ => ⟨1, 3⟩) (fun _ => ⟨2, 1⟩) (fun _ => ⟨2, 4⟩)
    (fun _ _ => ⟨0, 5⟩) (fun _ _ => ⟨0, 0⟩)
    (fun _ => (⟨1, 1⟩, ⟨1, 2⟩)) (fun _ => (⟨1, 0⟩, ⟨1, 7⟩))
    (fun _ _ => 0) (fun _ => 0) (fun _ _ => 0) 1 1 stdXgl
    (fun _ => (1, 1)) (fun _ => (0, 0))
    (fun _ _ => 0) (fun _ => 0) (fun _ _ => 0)
    rfl rfl rfl rfl

/-! ### Analytic derivative model (spec sections 4.3 and 4.4)

The analytic tangent and adjoint codes themselves live in the compiled
Fortran backend, outside the verified sources; per the specification
they are, respectively, the directional derivative of the composite
Frame-Builder ∘ Stress-Evaluator map along the input seed, and the
vector-Jacobian product of the same map with the output seed. -/

/-- Flattened index of the input arrays `(nodes, radius, disp)` for a
problem with `ny` nodes. -/
abbrev InIdx (ny : ℕ) : Type :=
  (Fin ny × Fin 3) ⊕ (Fin (ny - 1) ⊕ (Fin ny × Fin 6))

/-- Flattened index of the `vonmises` output array. -/
abbrev OutIdx (ny : ℕ) : Type := Fin (ny - 1) × Fin 2

/-- Evaluate (the `compute` method) as a map between flattened Euclidean input and
output spaces: the input vector is unpacked into the three arrays, the
loop is run, and the `(ny-1) × 2` output array is read off. -/
def evalMap (E G : ℝ) (x_gl : V3) (ny : ℕ)
    (x : EuclideanSpace ℝ (InIdx ny)) : EuclideanSpace ℝ (OutIdx ny) :=
  fun p =>
    let s : VMState :=
      ⟨fun i k => if h : i < ny then x (Sum.inl (⟨i, h⟩, k)) else 0,
       fun i => if h : i < ny - 1 then x (Sum.inr (Sum.inl ⟨i, h⟩)) else 0,
       fun i j => if h : i < ny then x (Sum.inr (Sum.inr (⟨i, h⟩, j))) else 0,
       fun _ => (0, 0), fun _ _ => 0⟩
    if (p.2 : ℕ) = 0 then ((compute E G x_gl ny s).vonmises p.1).1
    else ((compute E G x_gl ny s).vonmises p.1).2

/-- Modelled from the spec: the Forward-Mode Derivative Propagator
(`calc_vonmises_d`, spec 4.3) computes the directional derivative of the
composite Frame-Builder ∘ Stress-Evaluator map along the given input
tangent. -/
def vmForwardDeriv (E G : ℝ) (x_gl : V3) (ny : ℕ)
    (x s : EuclideanSpace ℝ (InIdx ny)) : EuclideanSpace ℝ (OutIdx ny) :=
  fderiv ℝ (evalMap E G x_gl ny) x s

/-- Modelled from the spec: the Reverse-Mode Derivative Propagator
(`calc_vonmises_b`, spec 4.4) computes the vector-Jacobian product of
the same composite map with the given output seed, i.e. applies the
adjoint of the derivative. -/
def vmReverseDeriv (E G : ℝ) (x_gl : V3) (ny : ℕ)
    (x : EuclideanSpace ℝ (InIdx ny)) (t : EuclideanSpace ℝ (OutIdx ny)) :
    EuclideanSpace ℝ (InIdx ny) :=
  ContinuousLinearMap.adjoint (fderiv ℝ (evalMap E G x_gl ny) x) t

/-- C7: the reverse-mode derivative operation is the exact adjoint of
the forward-mode one: for every input point `x` and every seed pair,
the dot product of the output seed with `ForwardDerivative(x, s_in)`
equals the dot product of the input seed with
`ReverseDerivative(x, s_out)`. -/
theorem jacvec_adjoint_exact (E G : ℝ) (x_gl : V3) (ny : ℕ)
    (x s : EuclideanSpace ℝ (InIdx ny)) (t : EuclideanSpace ℝ (OutIdx ny)) :
    (inner t (vmForwardDeriv E G x_gl ny x s) : ℝ) =
      inner (vmReverseDeriv E G x_gl ny x t) s := by
  rw [vmForwardDeriv, vmReverseDeriv, ContinuousLinearMap.adjoint_inner_left]

end

end VonMisesTube
